import Mathlib

/-!
# Verification of the quiz Mini App services

A shallow embedding of the parts of the `Atubu88/quiz` web application that
the specification talks about, together with proofs about them:

* `webapp/services/quiz_service.py` — team progress tracking
  (`_ensure_team_progress`, `_register_team_answer`, `_mark_player_completed`,
  `_finalize_team_if_ready`);
* `webapp/services/match_service.py` / `webapp/main.py` —
  `_collect_match_team_statuses`;
* `webapp/routers/game.py` — the scoreboard sort in `game_screen` and the
  `question_index` clamping;
* `webapp/services/supabase_client.py` / `webapp/main.py` —
  `_supabase_request` error wrapping;
* `webapp/main.py` — `_validate_init_data` / `_calc_hmacs`.

Modelling conventions:

* Python strings that are only tested for equality are Lean `String`s; the
  strings whose lexicographic order matters (sort keys, data-check strings)
  are modelled as `List Char` (code-point lists, matching Python's
  code-point comparison of `str`).
* Python dicts are association lists (`List (key × value)`); Python sets are
  lists with membership-based insertion.
* `async` database calls are modelled by passing their outcome in as an
  argument; an exception raised by the code is an `Except.error` result.
* Machine floats (elapsed seconds) are modelled as rationals `ℚ`, which have
  the same ordering on the values the program manipulates.
-/

/-- Python strings, as lists of code points, for the places where the source
compares strings lexicographically. -/
abbrev PyStr : Type := List Char

/-- Lexicographic `≤` on Python strings (code-point order), as Python's
`str` comparison used by `sorted()` and by tuple sort keys. -/
def pyStrLe : PyStr → PyStr → Bool
  | [], _ => true
  | _ :: _, [] => false
  | a :: as, b :: bs =>
    if a < b then true
    else if b < a then false
    else pyStrLe as bs

/-- Lookup in an association list modelling a Python dict (`d.get(k)`). -/
def dictGet {α : Type} (d : List (String × α)) (k : String) : Option α :=
  match d.find? (fun kv => kv.1 == k) with
  | some kv => some kv.2
  | none => none

/-- Store into an association list modelling a Python dict (`d[k] = v`):
replaces the binding if present, appends it otherwise. -/
def dictSet {α : Type} : List (String × α) → String → α → List (String × α)
  | [], k, v => [(k, v)]
  | kv :: rest, k, v =>
    if kv.1 = k then (k, v) :: rest else kv :: dictSet rest k v

/-- Python set insertion (`s.add(x)`) on a list with set semantics. -/
def setAdd (s : List String) (x : String) : List String :=
  if x ∈ s then s else s ++ [x]

/-- Truthiness of an optional string: `value not in (None, "")` is the check
the source writes as `if quiz_id not in (None, ""):`; plain truthiness
(`if value:`) coincides with it for optional strings. -/
def optStrTruthy : Option String → Bool
  | none => false
  | some s => s ≠ ""

/-! ## `quiz_service.py`: team progress state -/

/-- Per-player progress entry created by `_ensure_player_progress_entry`:
`{"score": 0, "answered_questions": set(), "completed": False}`. -/
structure PlayerEntry where
  score : Int
  answeredQuestions : List String
  completed : Bool
deriving Repr, DecidableEq

/-- The team progress record built by `_ensure_team_progress`.  The
`finalizing` re-entrancy flag is part of the record (`team_progress
["finalizing"]`); `team_start_time` keeps the raw value fetched from the
database, `time_taken` the computed elapsed seconds. -/
structure TeamProgress where
  teamId : String
  matchId : String
  quizId : Option String
  memberIds : List String
  answers : List (String × PlayerEntry)
  completedMembers : List String
  teamCompleted : Bool
  teamScore : Option Int
  teamStartTime : Option String
  timeTaken : Option ℚ
  finalizing : Bool
deriving Repr, DecidableEq

/-- `_ensure_player_progress_entry`: returns the player's entry, creating a
fresh `{"score": 0, "answered_questions": set(), "completed": False}` entry
in `team_progress["answers"]` when missing.  Returns the updated record and
the entry. -/
def ensure_player_progress_entry (p : TeamProgress) (userId : Int) :
    TeamProgress × PlayerEntry :=
  let key := toString userId
  match dictGet p.answers key with
  | some e => (p, e)
  | none =>
    let e : PlayerEntry := ⟨0, [], false⟩
    ({ p with answers := dictSet p.answers key e }, e)

/-- `_register_team_answer`: ignores `question_id in (None, "")`; otherwise
deduplicates on the player's `answered_questions` set and, on a first
answer, records it and bumps the score by one iff `is_correct`. -/
def register_team_answer (p : TeamProgress) (userId : Int)
    (questionId : Option String) (isCorrect : Bool) : TeamProgress :=
  match questionId with
  | none => p
  | some q =>
    if q = "" then p
    else
      let pe := ensure_player_progress_entry p userId
      let p₁ := pe.1
      let e := pe.2
      if q ∈ e.answeredQuestions then p₁
      else
        let e' : PlayerEntry :=
          { e with
            answeredQuestions := e.answeredQuestions ++ [q]
            score := if isCorrect then e.score + 1 else e.score }
        { p₁ with answers := dictSet p₁.answers (toString userId) e' }

/-- `_mark_player_completed`: marks the player done once, adding them to the
team's `completed_members` set; returns `false` when already completed. -/
def mark_player_completed (p : TeamProgress) (userId : Int) :
    TeamProgress × Bool :=
  let pe := ensure_player_progress_entry p userId
  let p₁ := pe.1
  let e := pe.2
  if e.completed then (p₁, false)
  else
    let e' : PlayerEntry := { e with completed := true }
    ({ p₁ with
        answers := dictSet p₁.answers (toString userId) e'
        completedMembers := setAdd p₁.completedMembers (toString userId) },
      true)

/-- The outcome of one `_finalize_team_if_ready` call: the updated record,
the returned boolean, whether `_upsert_team_result` was called, and whether
a result row was actually persisted (the call was made and succeeded). -/
structure FinalizeOutcome where
  progress : TeamProgress
  result : Bool
  didUpsert : Bool
  persisted : Bool
deriving Repr, DecidableEq

/-- `_finalize_team_if_ready`.  `parseIso` models `_parse_iso_datetime` on
the stored `team_start_time` string; `now` is `datetime.now(timezone.utc)`
as a timestamp; `upsertOk` is the outcome of the `_upsert_team_result`
database write (`false` = it raised).  Both `except` clauses of the source
swallow the write's exception, so the function itself never raises; the
`finalizing` flag set at entry is popped in the `finally` block, so the
returned record has it back to `false`. -/
def finalize_team_if_ready (parseIso : String → Option ℚ) (now : ℚ)
    (upsertOk : Bool) (p : TeamProgress) : FinalizeOutcome :=
  if p.teamCompleted then ⟨p, true, false, false⟩
  else if p.memberIds.isEmpty then ⟨p, false, false, false⟩
  else if ¬ p.memberIds.all (· ∈ p.completedMembers) then ⟨p, false, false, false⟩
  else if p.finalizing then ⟨p, p.teamCompleted, false, false⟩
  else
    let totalScore := (p.answers.map (fun kv => kv.2.score)).sum
    let startTime := p.teamStartTime.bind parseIso
    let timeTaken := startTime.map (fun s => max (now - s) 0)
    let p₁ : TeamProgress :=
      { p with
        teamScore := some totalScore
        timeTaken := match timeTaken with
          | some t => some t
          | none => p.timeTaken }
    let doUpsert := optStrTruthy p.quizId
    ⟨{ p₁ with teamCompleted := true }, true, doUpsert, doUpsert && upsertOk⟩

/-- A team row as passed to `_ensure_team_progress` (already through
`_normalize_identifier`, which maps `None` to `None` and everything else to
its string form). -/
structure TeamRow where
  id : Option String
  members : Option (List (Option String))
  startTime : Option String
deriving Repr, DecidableEq

/-- `{str(m.get("id")) for m in members if m.get("id") is not None}` — the
member-id set of a fetched member list. -/
def memberIdsOf (members : List (Option String)) : List String :=
  members.foldl (fun acc m =>
    match m with
    | none => acc
    | some i => setAdd acc i) []

/-- The `else` branch of `_ensure_team_progress` for an existing record:
fill `quiz_id` if it was empty, overwrite `member_ids` when the fresh fetch
is non-empty, fill `team_start_time` if it was empty. -/
def mergeTeamProgress (p : TeamProgress) (quizId : Option String)
    (memberIds : List String) (startTime : Option String) : TeamProgress :=
  let p₁ := if optStrTruthy quizId && !(optStrTruthy p.quizId)
    then { p with quizId := quizId } else p
  let p₂ := if memberIds.isEmpty then p₁ else { p₁ with memberIds := memberIds }
  if !(optStrTruthy p₂.teamStartTime) && optStrTruthy startTime
    then { p₂ with teamStartTime := startTime } else p₂

/-- The `TEAM_PROGRESS_CACHE`: match id → team id → progress record. -/
abbrev ProgressCache : Type := List (String × List (String × TeamProgress))

/-- `_ensure_team_progress`.  `fetched` is the result of the
`_fetch_team_members` call made when the row carries no member list (`none`
= the fetch raised and the source falls back to `[]`).  Raises 400 when
either normalized identifier is falsy; otherwise creates the record or
merges into the existing one, and returns the updated cache together with
the record stored in it. -/
def ensure_team_progress (cache : ProgressCache) (matchId : Option String)
    (team : TeamRow) (quizId : Option String)
    (fetched : Option (List (Option String))) :
    Except Nat (ProgressCache × TeamProgress) :=
  match matchId, team.id with
  | some mid, some tid =>
    if mid = "" ∨ tid = "" then .error 400
    else
      let matchProgress := (dictGet cache mid).getD []
      let members := match team.members with
        | some ms => ms
        | none => fetched.getD []
      let memberIds := memberIdsOf members
      match dictGet matchProgress tid with
      | none =>
        let tp : TeamProgress :=
          ⟨tid, mid, quizId, memberIds, [], [], false, none,
            team.startTime, none, false⟩
        .ok (dictSet cache mid (dictSet matchProgress tid tp), tp)
      | some tp₀ =>
        let tp := mergeTeamProgress tp₀ quizId memberIds team.startTime
        .ok (dictSet cache mid (dictSet matchProgress tid tp), tp)
  | _, _ => .error 400

/-! ## `_collect_match_team_statuses` (`webapp/main.py`, duplicated with
extra passthrough fields in `webapp/services/match_service.py`; the `ready`
computation and the `all_ready` logic are identical in both copies). -/

/-- A team row as consumed by `_collect_match_team_statuses`: the normalized
id, the name, and the truthiness of the row's `ready` column
(`bool(team.get("ready"))`). -/
structure MatchTeamRow where
  id : Option String
  name : Option String
  ready : Bool
deriving Repr, DecidableEq

/-- One element of the `statuses` list built by the loop. -/
structure TeamStatus where
  id : Option String
  name : Option String
  ready : Bool
deriving Repr, DecidableEq

/-- The `TEAM_READY_CACHE` (team id → cached ready flag). -/
abbrev ReadyCache : Type := List (String × Bool)

/-- One team's computed ready flag and the updated `TEAM_READY_CACHE`:
`TEAM_READY_CACHE.get(team_id) if team_id else None`, falling back to the
row's own flag, which is then `setdefault`-ed for truthy ids. -/
def teamReadyLookup (cache : ReadyCache) (t : MatchTeamRow) :
    Bool × ReadyCache :=
  match t.id with
  | none => (t.ready, cache)
  | some s =>
    if s = "" then (t.ready, cache)
    else
      match dictGet cache s with
      | some b => (b, cache)
      | none => (t.ready, dictSet cache s t.ready)

/-- The loop body of `_collect_match_team_statuses`: computes each team's
ready flag and the conjunction of all flags; threads the
`TEAM_READY_CACHE` state. -/
def collectStatusesGo (cache : ReadyCache) :
    List MatchTeamRow → List TeamStatus × Bool × ReadyCache
  | [] => ([], true, cache)
  | t :: ts =>
    let rc := teamReadyLookup cache t
    let rest := collectStatusesGo rc.2 ts
    (⟨t.id, t.name, rc.1⟩ :: rest.1, rest.2.1 && rc.1, rest.2.2)

/-- `_collect_match_team_statuses`: `all_ready` starts as
`len(teams) >= 2` and is cleared by every team whose computed flag is
false.  Returns `(statuses, all_ready)` and the updated cache. -/
def collect_match_team_statuses (cache : ReadyCache)
    (teams : List MatchTeamRow) :
    (List TeamStatus × Bool) × ReadyCache :=
  let r := collectStatusesGo cache teams
  ((r.1, decide (2 ≤ teams.length) && r.2.1), r.2.2)

/-! ## `_supabase_request` (`webapp/services/supabase_client.py` and the
identical copy in `webapp/main.py`) -/

/-- JSON values, for the bodies and error details the client manipulates. -/
inductive Json where
  | null : Json
  | bool (b : Bool) : Json
  | num (n : Int) : Json
  | str (s : String) : Json
  | arr (xs : List Json) : Json
  | obj (fields : List (String × Json)) : Json
deriving Repr

/-- Field lookup in a JSON object. -/
def Json.field : Json → String → Option Json
  | .obj fields, k => dictGet fields k
  | _, _ => none

/-- A `fastapi.HTTPException` as raised by the client. -/
structure HTTPExceptionModel where
  statusCode : Nat
  detail : Json
deriving Repr

/-- An upstream Supabase HTTP response, after the network round-trip
succeeded: its status code, its body parsed as JSON when `response.json()`
does not raise `ValueError`, and its raw text. -/
structure SupaResponse where
  statusCode : Nat
  jsonBody : Option Json
  text : String
deriving Repr

/-- What `_supabase_request` returns on success: `None` for 204, the parsed
JSON body, or the raw text when the body is not JSON. -/
inductive SupaResult where
  | noContent : SupaResult
  | json (j : Json) : SupaResult
  | text (s : String) : SupaResult
deriving Repr

/-- A Python `None`-able JSON argument serialized into the detail dict. -/
def jsonOrNull : Option Json → Json
  | none => Json.null
  | some j => j

/-- `_supabase_request`, after the network call produced `resp` (the
network-failure branch raises 502 before any response exists and is outside
this model).  Statuses `>= 400` re-raise the upstream status with the
structured detail dict; 204 yields `None`; otherwise the JSON body or the
raw text is returned. -/
def supabase_request (path : String) (params : Option Json)
    (payload : Option Json) (resp : SupaResponse) :
    Except HTTPExceptionModel SupaResult :=
  if 400 ≤ resp.statusCode then
    let detail := match resp.jsonBody with
      | some j => j
      | none => Json.obj [("message", Json.str resp.text)]
    .error ⟨resp.statusCode,
      Json.obj [("source", Json.str "Supabase"),
                ("status", Json.num (resp.statusCode : Int)),
                ("path", Json.str path),
                ("params", jsonOrNull params),
                ("payload", jsonOrNull payload),
                ("detail", detail)]⟩
  else if resp.statusCode = 204 then .ok .noContent
  else match resp.jsonBody with
    | some j => .ok (.json j)
    | none => .ok (.text resp.text)

/-! ## `game_screen` (`webapp/routers/game.py`): question index handling -/

/-- Decimal digit run, helper for `pyParseInt`. -/
def parseDigits (cs : List Char) : Option Nat :=
  if cs.isEmpty then none
  else if cs.all (fun c => c.isDigit) then
    some (cs.foldl (fun n c => 10 * n + (c.toNat - '0'.toNat)) 0)
  else none

/-- Python's `int(str)` on the strings the handler can receive: an optional
sign followed by digits (surrounding-whitespace tolerance is irrelevant to
the clamping claims); `none` models the `ValueError` branch. -/
def pyParseInt (s : String) : Option Int :=
  match s.data with
  | '-' :: rest => (parseDigits rest).map (fun n => -(n : Int))
  | '+' :: rest => (parseDigits rest).map (fun n => (n : Int))
  | cs => (parseDigits cs).map (fun n => (n : Int))

/-- `int(raw_question_index) if raw_question_index is not None else 0`, with
the `except (TypeError, ValueError): submitted_index = 0` fallback. -/
def question_index_of (raw : Option String) : Int :=
  match raw with
  | none => 0
  | some s => (pyParseInt s).getD 0

/-- The clamping step: `max(0, min(submitted_index, total_questions - 1))`
when the quiz has questions, `0` otherwise. -/
def clamp_question_index (i : Int) (total : Nat) : Nat :=
  if total = 0 then 0 else (max 0 (min i ((total : Int) - 1))).toNat

/-- The list of indices with which `game_screen` subscripts `questions`:
`questions[submitted_index]` when an option was submitted and the index is
below `total`, and `questions[next_index]` when the quiz is not finished
and the list is non-empty. -/
def game_screen_question_accesses (raw : Option String) (hasOption : Bool)
    (total : Nat) : List Nat :=
  let submitted := clamp_question_index (question_index_of raw) total
  let first := if hasOption && decide (submitted < total) then [submitted] else []
  let next := if hasOption then min (submitted + 1) total else submitted
  let quizFinished := decide (total = 0) || decide (total ≤ next)
  let second := if !quizFinished && decide (0 < total) then [next] else []
  first ++ second

/-! ## `game_screen` (`webapp/routers/game.py`): the scoreboard sort -/

/-- One scoreboard entry as built by the handler: a dict with `team_id`,
`team_name`, `score`, `time_taken`. -/
structure ScoreboardEntry where
  teamId : String
  teamName : Option String
  score : Option Int
  timeTaken : Option ℚ
deriving Repr, DecidableEq

/-- `item.get("score") or 0` (both a missing score and an explicit 0 give
0). -/
def scoreOrZero : Option Int → Int
  | none => 0
  | some s => s

/-- First component of the sort key: `-(item.get("score") or 0)`. -/
def scoreKeyOf (e : ScoreboardEntry) : Int := -(scoreOrZero e.score)

/-- `<` on the second key component, `item.get("time_taken")` with `None`
replaced by `float("inf")`: a missing time compares above every real one. -/
def timeKeyLt : Option ℚ → Option ℚ → Bool
  | some x, some y => decide (x < y)
  | some _, none => true
  | none, _ => false

/-- Third component: `item.get("team_name") or ""`, as code points. -/
def nameKeyOf (e : ScoreboardEntry) : PyStr :=
  (e.teamName.getD "").data

/-- Lexicographic `≤` on the Python key tuple
`(-(score or 0), time_taken or inf, team_name or "")`. -/
def scoreboard_key_le (a b : ScoreboardEntry) : Bool :=
  if scoreKeyOf a = scoreKeyOf b then
    if a.timeTaken = b.timeTaken then pyStrLe (nameKeyOf a) (nameKeyOf b)
    else timeKeyLt a.timeTaken b.timeTaken
  else decide (scoreKeyOf a < scoreKeyOf b)

/-- The order the specification describes: score descending, then
time-taken ascending with missing times after all present ones, then team
name ascending. -/
def scoreboardSpecLe (a b : ScoreboardEntry) : Prop :=
  scoreOrZero b.score < scoreOrZero a.score ∨
    (scoreOrZero a.score = scoreOrZero b.score ∧
      ((∃ ta, a.timeTaken = some ta ∧
          (b.timeTaken = none ∨ ∃ tb, b.timeTaken = some tb ∧ ta < tb)) ∨
        (a.timeTaken = b.timeTaken ∧
          pyStrLe (nameKeyOf a) (nameKeyOf b) = true)))

/-- `team_scoreboard.sort(key=lambda item: (-(item.get("score") or 0), ...))`
— Python's stable sort, modelled with a stable insertion sort on the same
key order. -/
def sort_team_scoreboard (l : List ScoreboardEntry) : List ScoreboardEntry :=
  List.insertionSort (fun a b => scoreboard_key_le a b = true) l

/-! ## `_validate_init_data` / `_calc_hmacs` (`webapp/main.py`)

The init-data payload, after `parse_qs` and popping `hash`, is a mapping
from field names to values; it is modelled as an association list of
code-point strings.  The two HMAC-SHA256 variants computed by `_calc_hmacs`
(WebAppData-derived key and Login-Widget key, for the fixed bot token) are
abstract functions `hW hL : PyStr → PyStr`. -/

/-- `f"{k}={parsed[k]}"`. -/
def entryLine (kv : PyStr × PyStr) : PyStr := kv.1 ++ '=' :: kv.2

/-- `"\n".join(lines)`. -/
def joinLines : List PyStr → PyStr
  | [] => []
  | [x] => x
  | x :: y :: ys => x ++ '\n' :: joinLines (y :: ys)

/-- Key order used by `sorted(parsed.keys())`. -/
def fieldKeyLe (a b : PyStr × PyStr) : Prop := pyStrLe a.1 b.1 = true

instance : DecidableRel fieldKeyLe := fun a b => by
  unfold fieldKeyLe; infer_instance

/-- `"\n".join(f"{k}={parsed[k]}" for k in sorted(parsed.keys()))`. -/
def data_check_string (fields : List (PyStr × PyStr)) : PyStr :=
  joinLines ((List.insertionSort fieldKeyLe fields).map entryLine)

/-- The `signature` field name. -/
def signatureKey : PyStr := "signature".data

/-- `parsed_legacy`: the payload with the `signature` field removed. -/
def legacyFields (fields : List (PyStr × PyStr)) : List (PyStr × PyStr) :=
  fields.filter (fun kv => kv.1 ≠ signatureKey)

/-- The four accepted hashes: `_calc_hmacs` of the full data-check string
and of the legacy (signature-less) one, in both key-derivation variants. -/
def hashCandidates (hW hL : PyStr → PyStr)
    (fields : List (PyStr × PyStr)) : List PyStr :=
  [hW (data_check_string fields),
   hL (data_check_string fields),
   hW (data_check_string (legacyFields fields)),
   hL (data_check_string (legacyFields fields))]

/-- The hash gate of `_validate_init_data`: 401 iff the received hash
matches none of the four candidates.  (The checks following the gate in the
source — `auth_date` freshness, `user` JSON — can only produce 400s and are
outside the tampering property.) -/
def validate_init_data_hash (hW hL : PyStr → PyStr)
    (fields : List (PyStr × PyStr)) (receivedHash : PyStr) :
    Except Nat Unit :=
  if receivedHash ∈ hashCandidates hW hL fields then .ok ()
  else .error 401

/-- The data-check strings involved in validating a payload. -/
def involvedStrings (fields : List (PyStr × PyStr)) : List PyStr :=
  [data_check_string fields, data_check_string (legacyFields fields)]

/-- The claim's collision-freedom assumption: HMAC-SHA256 (in either key
variant) produces distinct digests for the distinct data-check strings
involved in validating the original and the tampered payload. -/
def hmacDistinct (hW hL : PyStr → PyStr)
    (fields fields' : List (PyStr × PyStr)) : Prop :=
  ∀ s ∈ involvedStrings fields, ∀ s' ∈ involvedStrings fields',
    s ≠ s' →
      hW s ≠ hW s' ∧ hW s ≠ hL s' ∧ hL s ≠ hW s' ∧ hL s ≠ hL s'

/-! ## Observation helpers and single-process op traces -/

/-- The player's answered-question set as recorded in the progress record
(empty when the player has no entry yet). -/
def answeredOf (p : TeamProgress) (userId : Int) : List String :=
  match dictGet p.answers (toString userId) with
  | some e => e.answeredQuestions
  | none => []

/-- The player's score as recorded in the progress record (0 when the
player has no entry yet, as `_ensure_player_progress_entry` would create). -/
def scoreOf (p : TeamProgress) (userId : Int) : Int :=
  match dictGet p.answers (toString userId) with
  | some e => e.score
  | none => 0

/-- The operations a single process performs on one team progress record. -/
inductive QuizOp where
  | registerAnswer (userId : Int) (questionId : Option String) (isCorrect : Bool)
  | playerCompleted (userId : Int)
  | mergeRecord (quizId : Option String) (memberIds : List String)
      (startTime : Option String)
  | finalizeCall (now : ℚ) (upsertOk : Bool)

/-- Apply one operation; the second component counts the
`_upsert_team_result` database calls it issued. -/
def applyQuizOp (parseIso : String → Option ℚ) (p : TeamProgress) :
    QuizOp → TeamProgress × Nat
  | .registerAnswer u q ic => (register_team_answer p u q ic, 0)
  | .playerCompleted u => ((mark_player_completed p u).1, 0)
  | .mergeRecord qz ms st => (mergeTeamProgress p qz ms st, 0)
  | .finalizeCall now ok =>
    let r := finalize_team_if_ready parseIso now ok p
    (r.progress, if r.didUpsert then 1 else 0)

/-- Run a sequence of operations on a record, counting the result upserts
issued along the way. -/
def runQuizOps (parseIso : String → Option ℚ) (p : TeamProgress) :
    List QuizOp → TeamProgress × Nat
  | [] => (p, 0)
  | op :: ops =>
    let s := applyQuizOp parseIso p op
    let rest := runQuizOps parseIso s.1 ops
    (rest.1, s.2 + rest.2)

/-! ## Concrete sample inputs (used by witnesses and counterexamples) -/

/-- A sample progress record: one expected member `"7"` who answered one
question correctly but has not been marked completed. -/
def sampleProgress : TeamProgress :=
  ⟨"team-1", "match-1", some "quiz-1", ["7"], [("7", ⟨1, ["q-1"], false⟩)],
    [], false, none, none, none, false⟩

/-- The sample record with its only member completed: ready to finalize. -/
def sampleReady : TeamProgress :=
  { sampleProgress with
      answers := [("7", ⟨1, ["q-1"], true⟩)]
      completedMembers := ["7"] }

/-- The sample record already finalized. -/
def sampleDone : TeamProgress := { sampleProgress with teamCompleted := true }

/-- The sample record with an empty expected-member set. -/
def sampleNoMembers : TeamProgress := { sampleProgress with memberIds := [] }

/-- Scoreboard entry A of the specification's example. -/
def entryA : ScoreboardEntry := ⟨"team-a", some "A", some 3, some 50⟩

/-- Scoreboard entry B of the specification's example. -/
def entryB : ScoreboardEntry := ⟨"team-b", some "B", some 3, some 40⟩

/-- Scoreboard entry C of the specification's example. -/
def entryC : ScoreboardEntry := ⟨"team-c", some "C", some 5, some 999⟩

/-- A stand-in WebAppData-variant HMAC: prepends a tag, so it is injective
and never collides with the Login-variant stand-in. -/
def sampleHmacW : PyStr → PyStr := fun s => 'W' :: s

/-- A stand-in Login-Widget-variant HMAC. -/
def sampleHmacL : PyStr → PyStr := fun s => 'L' :: s

/-- A parsed init-data payload (hash already popped) carrying a `signature`
field, with keys in sorted order. -/
def sampleFields : List (PyStr × PyStr) :=
  [("auth_date".data, "1".data), ("signature".data, "abc".data)]

/-- `sampleFields` with one character of the `signature` value altered. -/
def sampleFieldsTampered : List (PyStr × PyStr) :=
  [("auth_date".data, "1".data), ("signature".data, ("abc".data).set 0 'x')]

/-- A received hash matching the legacy (signature-less) WebAppData
candidate for `sampleFields`. -/
def sampleLegacyHash : PyStr :=
  sampleHmacW (data_check_string (legacyFields sampleFields))

/-- A signature-less payload, for the amended tampering theorem's witness. -/
def sampleFields₂ : List (PyStr × PyStr) :=
  [("auth_date".data, "1".data), ("user".data, "u".data)]

/-- `sampleFields₂` with the `user` value's character altered. -/
def sampleFields₂T : List (PyStr × PyStr) :=
  [("auth_date".data, "1".data), ("user".data, ("u".data).set 0 'v')]

/-- A received hash matching the full data-check string of
`sampleFields₂` in the WebAppData variant. -/
def sampleFullHash : PyStr := sampleHmacW (data_check_string sampleFields₂)

/-- The record a second `_ensure_team_progress` call returns for an
existing entry: the stored record with the fresh member fetch merged in
(the `else` branch of the source). -/
def ensureMergedRecord (p : TeamProgress) (team : TeamRow)
    (quizId : Option String) (fetched : Option (List (Option String))) :
    TeamProgress :=
  mergeTeamProgress p quizId
    (memberIdsOf (match team.members with
      | some ms => ms
      | none => fetched.getD []))
    team.startTime

/-- A sample team row for the `_ensure_team_progress` witness. -/
def sampleTeamRow : TeamRow := ⟨some "team-1", some [some "7"], none⟩

/-- The record the first `_ensure_team_progress` call creates for
`sampleTeamRow` in match `match-1` with quiz `quiz-1`. -/
def sampleEnsured : TeamProgress :=
  ⟨"team-1", "match-1", some "quiz-1", ["7"], [], [], false, none, none,
    none, false⟩

/-! # Theorems

First a few facts about the dict model, then the claims. -/

theorem dictGet_cons {α : Type} (kv : String × α) (d : List (String × α))
    (k : String) :
    dictGet (kv :: d) k = if kv.1 = k then some kv.2 else dictGet d k := by
  by_cases h : kv.1 = k
  · simp [dictGet, List.find?, h]
  · have hb : (kv.1 == k) = false := by simp [h]
    simp [dictGet, List.find?, hb, h]

theorem dictGet_dictSet_self {α : Type} (d : List (String × α)) (k : String)
    (v : α) : dictGet (dictSet d k v) k = some v := by
  induction d with
  | nil => simp [dictSet, dictGet_cons]
  | cons kv rest ih =>
    by_cases h : kv.1 = k
    · simp [dictSet, h, dictGet_cons]
    · simp [dictSet, h, dictGet_cons, ih]

/-! ## C7: `_supabase_request` error wrapping -/

/-- **C7.** For every upstream response with status `>= 400`,
`_supabase_request` raises an `HTTPException` carrying the upstream status
code and a structured detail payload embedding the upstream JSON error body
(or, when the body is not JSON, the raw text wrapped as a message) together
with the request's path, params and payload; for statuses below 400 no
exception is raised. -/
theorem supabase_request_error_wrapping :
    ∀ (path : String) (params payload : Option Json) (resp : SupaResponse),
      (400 ≤ resp.statusCode →
        ∃ e, supabase_request path params payload resp = .error e ∧
          e.statusCode = resp.statusCode ∧
          e.detail.field "source" = some (Json.str "Supabase") ∧
          e.detail.field "status" = some (Json.num (resp.statusCode : Int)) ∧
          e.detail.field "path" = some (Json.str path) ∧
          e.detail.field "params" = some (jsonOrNull params) ∧
          e.detail.field "payload" = some (jsonOrNull payload) ∧
          e.detail.field "detail" = some (match resp.jsonBody with
            | some j => j
            | none => Json.obj [("message", Json.str resp.text)])) ∧
      (resp.statusCode < 400 →
        ∃ v, supabase_request path params payload resp = .ok v) := by
  intro path params payload resp
  constructor
  · intro h
    refine ⟨⟨resp.statusCode,
      Json.obj [("source", Json.str "Supabase"),
                ("status", Json.num (resp.statusCode : Int)),
                ("path", Json.str path),
                ("params", jsonOrNull params),
                ("payload", jsonOrNull payload),
                ("detail", match resp.jsonBody with
                  | some j => j
                  | none => Json.obj [("message", Json.str resp.text)])]⟩,
      ?_, rfl, rfl, rfl, rfl, rfl, rfl, rfl⟩
    unfold supabase_request
    rw [if_pos h]
  · intro h
    have h' : ¬ 400 ≤ resp.statusCode := by omega
    by_cases h204 : resp.statusCode = 204
    · exact ⟨.noContent, by unfold supabase_request; rw [if_neg h', if_pos h204]⟩
    · cases hb : resp.jsonBody with
      | none =>
        exact ⟨.text resp.text, by
          unfold supabase_request; rw [if_neg h', if_neg h204, hb]⟩
      | some j =>
        exact ⟨.json j, by
          unfold supabase_request; rw [if_neg h', if_neg h204, hb]⟩

/-- Witness for C7: a 500 response with non-JSON body is wrapped and
re-raised with status 500; a 200 response raises nothing. -/
theorem supabase_request_error_wrapping_witness :
    (∃ e, supabase_request "teams" none none ⟨500, none, "boom"⟩ = .error e ∧
      e.statusCode = 500 ∧
      e.detail.field "source" = some (Json.str "Supabase") ∧
      e.detail.field "status" = some (Json.num 500) ∧
      e.detail.field "path" = some (Json.str "teams") ∧
      e.detail.field "params" = some Json.null ∧
      e.detail.field "payload" = some Json.null ∧
      e.detail.field "detail" = some (Json.obj [("message", Json.str "boom")])) ∧
    (∃ v, supabase_request "quizzes" none none ⟨200, some Json.null, ""⟩ = .ok v) :=
  ⟨(supabase_request_error_wrapping "teams" none none ⟨500, none, "boom"⟩).1
      (by decide),
    (supabase_request_error_wrapping "quizzes" none none
      ⟨200, some Json.null, ""⟩).2 (by decide)⟩

/-! ## C10: question index clamping in `game_screen` -/

/-- **C10.** A missing or non-numeric `question_index` query parameter is
treated as 0; any integer value is clamped into `[0, total - 1]` when the
quiz has questions and forced to 0 when it has none; consequently every
index with which the handler subscripts the question list is in range. -/
theorem game_screen_question_index_in_bounds :
    ∀ (raw : Option String) (hasOption : Bool) (total : Nat),
      question_index_of none = 0 ∧
      (∀ s, pyParseInt s = none → question_index_of (some s) = 0) ∧
      (total = 0 → clamp_question_index (question_index_of raw) total = 0) ∧
      (0 < total → clamp_question_index (question_index_of raw) total < total) ∧
      ∀ i ∈ game_screen_question_accesses raw hasOption total, i < total := by
  intro raw hasOption total
  have hclamp : ∀ j : Int, 0 < total → clamp_question_index j total < total := by
    intro j ht
    simp only [clamp_question_index, if_neg (by omega : ¬ total = 0)]
    omega
  refine ⟨rfl, ?_, ?_, hclamp _, ?_⟩
  · intro s hs
    simp [question_index_of, hs]
  · intro h
    simp [clamp_question_index, h]
  · intro i hi
    by_cases h0 : total = 0
    · subst h0
      have hz : clamp_question_index (question_index_of raw) 0 = 0 := by
        simp [clamp_question_index]
      simp [game_screen_question_accesses, hz] at hi
    · have htot : 0 < total := Nat.pos_of_ne_zero h0
      have hsub : clamp_question_index (question_index_of raw) total < total :=
        hclamp _ htot
      simp only [game_screen_question_accesses, List.mem_append] at hi
      rcases hi with hi | hi <;> cases hasOption <;> simp_all

/-- Witness for C10: a malformed parameter parses to 0, an oversized index
is clamped, and every access for `question_index=12` on a 5-question quiz
is in range. -/
theorem game_screen_question_index_in_bounds_witness :
    question_index_of (some "12a") = 0 ∧
    clamp_question_index (question_index_of (some "12")) 5 < 5 ∧
    ∀ i ∈ game_screen_question_accesses (some "12") true 5, i < 5 :=
  ⟨(game_screen_question_index_in_bounds (some "12") true 5).2.1 "12a"
      (by decide),
    (game_screen_question_index_in_bounds (some "12") true 5).2.2.2.1
      (by decide),
    (game_screen_question_index_in_bounds (some "12") true 5).2.2.2.2⟩

/-! ## C9: teams with no known members are never finalized -/

/-- **C9.** A not-yet-finalized progress record whose expected member-id
set is empty is returned unchanged by `_finalize_team_if_ready` with result
`false`, no database write issued and no completion flag set — the
`if not member_ids: return False` guard fires before the (vacuous) subset
check.  (`team_completed = false` is an invariant of reachable records:
the flag is only ever set under a non-empty member set, which merging can
only overwrite with a non-empty fetched list.) -/
theorem finalize_team_if_ready_empty_members :
    ∀ (parseIso : String → Option ℚ) (now : ℚ) (upsertOk : Bool)
      (p : TeamProgress), p.teamCompleted = false → p.memberIds = [] →
      finalize_team_if_ready parseIso now upsertOk p = ⟨p, false, false, false⟩ := by
  intro parseIso now upsertOk p h1 h2
  simp [finalize_team_if_ready, h1, h2]

/-- Witness for C9 at a concrete memberless record. -/
theorem finalize_team_if_ready_empty_members_witness :
    finalize_team_if_ready (fun _ => none) 0 true sampleNoMembers =
      ⟨sampleNoMembers, false, false, false⟩ :=
  finalize_team_if_ready_empty_members (fun _ => none) 0 true sampleNoMembers
    rfl rfl

/-! ## C6: database failures during finalize are swallowed -/

/-- **C6.** For a record satisfying the finalization condition (not yet
finalized, non-empty member set all completed, valid quiz id, no re-entrant
call in flight), a failing `_upsert_team_result` call (`upsertOk = false`)
is caught inside `_finalize_team_if_ready` — the model's total function
returning normally is the source's `except ... logging` swallowing both
exception types — and the call still marks the record completed and returns
`true`, with the write attempted but nothing persisted. -/
theorem finalize_team_if_ready_swallows_db_failure :
    ∀ (parseIso : String → Option ℚ) (now : ℚ) (p : TeamProgress),
      p.teamCompleted = false → p.memberIds ≠ [] →
      p.memberIds.all (· ∈ p.completedMembers) = true →
      p.finalizing = false → optStrTruthy p.quizId = true →
      (finalize_team_if_ready parseIso now false p).result = true ∧
      (finalize_team_if_ready parseIso now false p).progress.teamCompleted = true ∧
      (finalize_team_if_ready parseIso now false p).didUpsert = true ∧
      (finalize_team_if_ready parseIso now false p).persisted = false := by
  intro parseIso now p h1 h2 h3 h4 h5
  have h2' : p.memberIds.isEmpty = false := by
    simpa [List.isEmpty_iff] using h2
  simp [finalize_team_if_ready, h1, h2', h3, h4, h5]

/-- Witness for C6 at a concrete ready record whose upsert fails. -/
theorem finalize_team_if_ready_swallows_db_failure_witness :
    (finalize_team_if_ready (fun _ => none) 0 false sampleReady).result = true ∧
    (finalize_team_if_ready (fun _ => none) 0 false sampleReady).progress.teamCompleted = true ∧
    (finalize_team_if_ready (fun _ => none) 0 false sampleReady).didUpsert = true ∧
    (finalize_team_if_ready (fun _ => none) 0 false sampleReady).persisted = false :=
  finalize_team_if_ready_swallows_db_failure (fun _ => none) 0 sampleReady
    rfl (by decide) (by decide) rfl rfl

/-! ## C3: the two-team readiness threshold -/

theorem collectStatusesGo_cons (cache : ReadyCache) (t : MatchTeamRow)
    (ts : List MatchTeamRow) :
    collectStatusesGo cache (t :: ts) =
      (⟨t.id, t.name, (teamReadyLookup cache t).1⟩ ::
          (collectStatusesGo (teamReadyLookup cache t).2 ts).1,
        (collectStatusesGo (teamReadyLookup cache t).2 ts).2.1 &&
          (teamReadyLookup cache t).1,
        (collectStatusesGo (teamReadyLookup cache t).2 ts).2.2) := rfl

theorem collectStatusesGo_all_ready (teams : List MatchTeamRow) :
    ∀ cache : ReadyCache,
      ((collectStatusesGo cache teams).2.1 = true ↔
        ∀ s ∈ (collectStatusesGo cache teams).1, s.ready = true) := by
  induction teams with
  | nil => intro cache; simp [collectStatusesGo]
  | cons t ts ih =>
    intro cache
    rw [collectStatusesGo_cons]
    simp only [Bool.and_eq_true, List.mem_cons]
    rw [ih]
    constructor
    · rintro ⟨hall, hr⟩ s (rfl | hs)
      · exact hr
      · exact hall s hs
    · intro h
      exact ⟨fun s hs => h s (Or.inr hs), h _ (Or.inl rfl)⟩

/-- **C3.** `all_ready` is `false` whenever the team list has at most one
element, regardless of the ready flags, and is `true` exactly when the list
has at least two teams and every team's computed ready flag (cache-assisted,
defaulting to the row's own flag) is true. -/
theorem collect_match_team_statuses_all_ready :
    ∀ (cache : ReadyCache) (teams : List MatchTeamRow),
      (teams.length ≤ 1 →
        (collect_match_team_statuses cache teams).1.2 = false) ∧
      ((collect_match_team_statuses cache teams).1.2 = true ↔
        2 ≤ teams.length ∧
          ∀ s ∈ (collect_match_team_statuses cache teams).1.1,
            s.ready = true) := by
  intro cache teams
  constructor
  · intro h
    have h2 : ¬ 2 ≤ teams.length := by omega
    simp [collect_match_team_statuses, h2]
  · simp only [collect_match_team_statuses, Bool.and_eq_true,
      decide_eq_true_eq]
    rw [collectStatusesGo_all_ready teams cache]

/-- Witness for C3: one ready team alone never yields `all_ready`; two
ready teams do. -/
theorem collect_match_team_statuses_all_ready_witness :
    (collect_match_team_statuses [] [⟨some "t1", some "Alpha", true⟩]).1.2
        = false ∧
    (collect_match_team_statuses []
        [⟨some "t1", some "Alpha", true⟩, ⟨some "t2", some "Beta", true⟩]).1.2
        = true :=
  ⟨(collect_match_team_statuses_all_ready []
        [⟨some "t1", some "Alpha", true⟩]).1 (by decide),
    (collect_match_team_statuses_all_ready []
        [⟨some "t1", some "Alpha", true⟩, ⟨some "t2", some "Beta", true⟩]).2.mpr
      ⟨by decide, by decide⟩⟩

/-! ## C2: at-most-once answer registration -/

theorem register_team_answer_already_answered
    (p : TeamProgress) (userId : Int) (q : String) (ic : Bool)
    (hq : q ≠ "") (hmem : q ∈ answeredOf p userId) :
    register_team_answer p userId (some q) ic = p := by
  rcases hd : dictGet p.answers (toString userId) with _ | e
  · rw [answeredOf, hd] at hmem
    exact absurd hmem (List.not_mem_nil q)
  · rw [answeredOf, hd] at hmem
    simp only [register_team_answer, ensure_player_progress_entry, hd]
    rw [if_neg hq, if_pos hmem]

theorem register_team_answer_first
    (p : TeamProgress) (userId : Int) (q : String) (ic : Bool)
    (hq : q ≠ "") (hnew : q ∉ answeredOf p userId) :
    answeredOf (register_team_answer p userId (some q) ic) userId =
      answeredOf p userId ++ [q] ∧
    scoreOf (register_team_answer p userId (some q) ic) userId =
      scoreOf p userId + (if ic then 1 else 0) := by
  rcases hd : dictGet p.answers (toString userId) with _ | e
  · rw [answeredOf, hd] at hnew
    have hreg : register_team_answer p userId (some q) ic =
        { p with answers :=
            (dictSet (dictSet p.answers (toString userId) ⟨0, [], false⟩)
              (toString userId) ⟨if ic then 0 + 1 else 0, [] ++ [q], false⟩) } := by
      simp only [register_team_answer, ensure_player_progress_entry, hd]
      rw [if_neg hq, if_neg (List.not_mem_nil q)]
    rw [hreg]
    simp [answeredOf, scoreOf, dictGet_dictSet_self, hd]
  · rw [answeredOf, hd] at hnew
    have hreg : register_team_answer p userId (some q) ic =
        { p with answers :=
            (dictSet p.answers (toString userId)
              { e with
                answeredQuestions := e.answeredQuestions ++ [q]
                score := if ic then e.score + 1 else e.score }) } := by
      simp only [register_team_answer, ensure_player_progress_entry, hd]
      rw [if_neg hq, if_neg hnew]
    rw [hreg]
    simp [answeredOf, scoreOf, dictGet_dictSet_self, hd]
    cases ic <;> simp

/-- **C2.** For every progress record, player and non-empty question id:
once the pair (player, question) is in the answered set, another
`_register_team_answer` call with any `is_correct` flag leaves the record
exactly as it is; a first registration appends the question to the player's
answered set and increments the player's score by one iff the answer is
flagged correct, and an immediately repeated call (any flag) is a no-op. -/
theorem register_team_answer_at_most_once :
    ∀ (p : TeamProgress) (userId : Int) (q : String) (ic₁ ic₂ : Bool),
      q ≠ "" →
      (q ∈ answeredOf p userId →
        register_team_answer p userId (some q) ic₂ = p) ∧
      (q ∉ answeredOf p userId →
        answeredOf (register_team_answer p userId (some q) ic₁) userId =
          answeredOf p userId ++ [q] ∧
        scoreOf (register_team_answer p userId (some q) ic₁) userId =
          scoreOf p userId + (if ic₁ then 1 else 0) ∧
        register_team_answer (register_team_answer p userId (some q) ic₁)
            userId (some q) ic₂ =
          register_team_answer p userId (some q) ic₁) := by
  intro p userId q ic₁ ic₂ hq
  refine ⟨fun hmem =>
    register_team_answer_already_answered p userId q ic₂ hq hmem,
    fun hnew => ?_⟩
  obtain ⟨h1, h2⟩ := register_team_answer_first p userId q ic₁ hq hnew
  refine ⟨h1, h2, ?_⟩
  apply register_team_answer_already_answered _ _ _ _ hq
  rw [h1]
  exact List.mem_append_right _ (List.mem_singleton_self q)

/-- Witness for C2: player 7 of the sample record answers the fresh
question `q-2` correctly; the answer is recorded once, scores one point,
and a resubmission (flagged incorrect) changes nothing. -/
theorem register_team_answer_at_most_once_witness :
    answeredOf (register_team_answer sampleProgress 7 (some "q-2") true) 7 =
      answeredOf sampleProgress 7 ++ ["q-2"] ∧
    scoreOf (register_team_answer sampleProgress 7 (some "q-2") true) 7 =
      scoreOf sampleProgress 7 + 1 ∧
    register_team_answer
        (register_team_answer sampleProgress 7 (some "q-2") true)
        7 (some "q-2") false =
      register_team_answer sampleProgress 7 (some "q-2") true :=
  (register_team_answer_at_most_once sampleProgress 7 "q-2" true false
    (by decide)).2 (by decide)

/-! ## C1: finalization is monotone and upserts at most once per record -/

theorem register_team_answer_teamCompleted (p : TeamProgress) (u : Int)
    (q : Option String) (ic : Bool) :
    (register_team_answer p u q ic).teamCompleted = p.teamCompleted := by
  cases q with
  | none => rfl
  | some s =>
    by_cases hs : s = ""
    · simp [register_team_answer, hs]
    · rcases hd : dictGet p.answers (toString u) with _ | e <;>
        simp only [register_team_answer, ensure_player_progress_entry, hd,
          if_neg hs] <;> split <;> rfl

theorem mark_player_completed_teamCompleted (p : TeamProgress) (u : Int) :
    (mark_player_completed p u).1.teamCompleted = p.teamCompleted := by
  rcases hd : dictGet p.answers (toString u) with _ | e <;>
    simp only [mark_player_completed, ensure_player_progress_entry, hd] <;>
    split <;> rfl

theorem mergeTeamProgress_teamCompleted (p : TeamProgress)
    (qz : Option String) (ms : List String) (st : Option String) :
    (mergeTeamProgress p qz ms st).teamCompleted = p.teamCompleted := by
  simp only [mergeTeamProgress]
  split <;> split <;> split <;> rfl

theorem finalize_team_if_ready_on_completed (parseIso : String → Option ℚ)
    (now : ℚ) (upsertOk : Bool) (p : TeamProgress)
    (h : p.teamCompleted = true) :
    finalize_team_if_ready parseIso now upsertOk p = ⟨p, true, false, false⟩ := by
  simp [finalize_team_if_ready, h]

theorem finalize_team_if_ready_didUpsert_completed
    (parseIso : String → Option ℚ) (now : ℚ) (upsertOk : Bool)
    (p : TeamProgress) :
    (finalize_team_if_ready parseIso now upsertOk p).didUpsert = true →
    (finalize_team_if_ready parseIso now upsertOk p).progress.teamCompleted
      = true := by
  unfold finalize_team_if_ready
  split_ifs <;> simp

theorem applyQuizOp_on_completed (parseIso : String → Option ℚ)
    (p : TeamProgress) (op : QuizOp) (h : p.teamCompleted = true) :
    (applyQuizOp parseIso p op).1.teamCompleted = true ∧
    (applyQuizOp parseIso p op).2 = 0 := by
  cases op with
  | registerAnswer u q ic =>
    exact ⟨by simpa [applyQuizOp, register_team_answer_teamCompleted], rfl⟩
  | playerCompleted u =>
    exact ⟨by simpa [applyQuizOp, mark_player_completed_teamCompleted], rfl⟩
  | mergeRecord qz ms st =>
    exact ⟨by simpa [applyQuizOp, mergeTeamProgress_teamCompleted], rfl⟩
  | finalizeCall now ok =>
    simp [applyQuizOp, finalize_team_if_ready_on_completed _ _ _ _ h, h]

theorem runQuizOps_on_completed (parseIso : String → Option ℚ)
    (ops : List QuizOp) :
    ∀ p : TeamProgress, p.teamCompleted = true →
      (runQuizOps parseIso p ops).2 = 0 := by
  induction ops with
  | nil => intro p _; rfl
  | cons op ops ih =>
    intro p h
    obtain ⟨h1, h2⟩ := applyQuizOp_on_completed parseIso p op h
    simp only [runQuizOps, h2, ih _ h1]

theorem applyQuizOp_count (parseIso : String → Option ℚ)
    (p : TeamProgress) (op : QuizOp) :
    (applyQuizOp parseIso p op).2 ≤ 1 ∧
    ((applyQuizOp parseIso p op).2 = 1 →
      (applyQuizOp parseIso p op).1.teamCompleted = true) := by
  cases op with
  | registerAnswer u q ic => simp [applyQuizOp]
  | playerCompleted u => simp [applyQuizOp]
  | mergeRecord qz ms st => simp [applyQuizOp]
  | finalizeCall now ok =>
    by_cases hu : (finalize_team_if_ready parseIso now ok p).didUpsert = true
    · refine ⟨by simp [applyQuizOp, hu], fun _ => ?_⟩
      simpa [applyQuizOp] using
        finalize_team_if_ready_didUpsert_completed parseIso now ok p hu
    · simp [applyQuizOp, hu]

/-- **C1.** Once a progress record has `team_completed = true`, every
`_finalize_team_if_ready` call returns `true`, issues no
`_upsert_team_result` database request and leaves the record unchanged;
and along any single-process sequence of operations on one record
(answer registrations, player completions, `_ensure_team_progress` merges,
finalize calls with arbitrary clock values and write outcomes) the result
upsert is issued at most once. -/
theorem finalize_team_if_ready_monotone :
    (∀ (parseIso : String → Option ℚ) (now : ℚ) (upsertOk : Bool)
        (p : TeamProgress), p.teamCompleted = true →
      finalize_team_if_ready parseIso now upsertOk p = ⟨p, true, false, false⟩) ∧
    (∀ (parseIso : String → Option ℚ) (p : TeamProgress) (ops : List QuizOp),
      (runQuizOps parseIso p ops).2 ≤ 1) := by
  refine ⟨finalize_team_if_ready_on_completed, ?_⟩
  intro parseIso p ops
  induction ops generalizing p with
  | nil => simp [runQuizOps]
  | cons op ops ih =>
    simp only [runQuizOps]
    obtain ⟨hle, hone⟩ := applyQuizOp_count parseIso p op
    by_cases h0 : (applyQuizOp parseIso p op).2 = 0
    · rw [h0]
      simpa using ih (applyQuizOp parseIso p op).1
    · have h1 : (applyQuizOp parseIso p op).2 = 1 := by omega
      have hz := runQuizOps_on_completed parseIso ops _ (hone h1)
      omega

/-- Witness for C1: a second finalize on the finalized sample record is an
upsert-free no-op, and a trace that finalizes twice issues one upsert. -/
theorem finalize_team_if_ready_monotone_witness :
    finalize_team_if_ready (fun _ => none) 0 true sampleDone =
      ⟨sampleDone, true, false, false⟩ ∧
    (runQuizOps (fun _ => none) sampleProgress
        [.playerCompleted 7, .finalizeCall 0 true, .finalizeCall 1 true]).2
      ≤ 1 :=
  ⟨finalize_team_if_ready_monotone.1 (fun _ => none) 0 true sampleDone rfl,
    finalize_team_if_ready_monotone.2 (fun _ => none) sampleProgress
      [.playerCompleted 7, .finalizeCall 0 true, .finalizeCall 1 true]⟩

/-! ## C8: `_ensure_team_progress` returns the stored record -/

theorem mergeTeamProgress_preserves (p : TeamProgress) (qz : Option String)
    (ms : List String) (st : Option String) :
    (mergeTeamProgress p qz ms st).answers = p.answers ∧
    (mergeTeamProgress p qz ms st).completedMembers = p.completedMembers ∧
    (mergeTeamProgress p qz ms st).teamCompleted = p.teamCompleted ∧
    (mergeTeamProgress p qz ms st).teamScore = p.teamScore ∧
    (mergeTeamProgress p qz ms st).teamId = p.teamId ∧
    (mergeTeamProgress p qz ms st).matchId = p.matchId := by
  simp only [mergeTeamProgress]
  split <;> split <;> split <;> simp

theorem ensure_team_progress_stores
    (cache : ProgressCache) (mid tid : String) (team : TeamRow)
    (qz : Option String) (f : Option (List (Option String)))
    (c' : ProgressCache) (p' : TeamProgress)
    (hid : team.id = some tid) (hmid : mid ≠ "") (htid : tid ≠ "")
    (h : ensure_team_progress cache (some mid) team qz f = .ok (c', p')) :
    ∃ mp, dictGet c' mid = some mp ∧ dictGet mp tid = some p' := by
  simp only [ensure_team_progress, hid] at h
  rw [if_neg (by simp [hmid, htid])] at h
  split at h <;>
  · rw [Except.ok.injEq, Prod.mk.injEq] at h
    obtain ⟨hc, hp⟩ := h
    subst hc hp
    exact ⟨_, dictGet_dictSet_self _ _ _, dictGet_dictSet_self _ _ _⟩

/-- **C8.** After a successful `_ensure_team_progress` call produced the
record `p₁` for `(match, team)`, a second call for the same pair (with any
quiz id and member fetch) succeeds, does not create a fresh record, and
returns precisely the stored `p₁` with the fresh member-id list merged in:
the returned record is the one stored in the updated cache, and its
answers, completed members, completion flag, score and identifiers are
those of `p₁`. -/
theorem ensure_team_progress_idempotent :
    ∀ (cache : ProgressCache) (mid tid : String) (team₁ team₂ : TeamRow)
      (qz₁ qz₂ : Option String) (f₁ f₂ : Option (List (Option String)))
      (c₁ : ProgressCache) (p₁ : TeamProgress),
      team₁.id = some tid → team₂.id = some tid → mid ≠ "" → tid ≠ "" →
      ensure_team_progress cache (some mid) team₁ qz₁ f₁ = .ok (c₁, p₁) →
      ∃ c₂,
        ensure_team_progress c₁ (some mid) team₂ qz₂ f₂ =
          .ok (c₂, ensureMergedRecord p₁ team₂ qz₂ f₂) ∧
        (∃ mp, dictGet c₂ mid = some mp ∧
          dictGet mp tid = some (ensureMergedRecord p₁ team₂ qz₂ f₂)) ∧
        (ensureMergedRecord p₁ team₂ qz₂ f₂).answers = p₁.answers ∧
        (ensureMergedRecord p₁ team₂ qz₂ f₂).completedMembers =
          p₁.completedMembers ∧
        (ensureMergedRecord p₁ team₂ qz₂ f₂).teamCompleted = p₁.teamCompleted ∧
        (ensureMergedRecord p₁ team₂ qz₂ f₂).teamScore = p₁.teamScore ∧
        (ensureMergedRecord p₁ team₂ qz₂ f₂).teamId = p₁.teamId ∧
        (ensureMergedRecord p₁ team₂ qz₂ f₂).matchId = p₁.matchId := by
  intro cache mid tid team₁ team₂ qz₁ qz₂ f₁ f₂ c₁ p₁ hid₁ hid₂ hmid htid h₁
  obtain ⟨mp, hmp, htp⟩ :=
    ensure_team_progress_stores cache mid tid team₁ qz₁ f₁ c₁ p₁ hid₁ hmid
      htid h₁
  refine ⟨dictSet c₁ mid (dictSet mp tid (ensureMergedRecord p₁ team₂ qz₂ f₂)),
    ?_, ⟨_, dictGet_dictSet_self _ _ _, dictGet_dictSet_self _ _ _⟩,
    mergeTeamProgress_preserves p₁ qz₂ _ team₂.startTime⟩
  simp only [ensure_team_progress, hid₂]
  rw [if_neg (by simp [hmid, htid])]
  simp only [hmp, Option.getD_some, htp, ensureMergedRecord]

/-- Witness for C8: creating and then re-ensuring the sample team's record
in an empty cache returns the stored record, merged. -/
theorem ensure_team_progress_idempotent_witness :
    ∃ c₂,
      ensure_team_progress [("match-1", [("team-1", sampleEnsured)])]
          (some "match-1") sampleTeamRow (some "quiz-1") none =
        .ok (c₂, ensureMergedRecord sampleEnsured sampleTeamRow
          (some "quiz-1") none) ∧
      (∃ mp, dictGet c₂ "match-1" = some mp ∧
        dictGet mp "team-1" = some (ensureMergedRecord sampleEnsured
          sampleTeamRow (some "quiz-1") none)) ∧
      (ensureMergedRecord sampleEnsured sampleTeamRow (some "quiz-1")
          none).answers = sampleEnsured.answers ∧
      (ensureMergedRecord sampleEnsured sampleTeamRow (some "quiz-1")
          none).completedMembers = sampleEnsured.completedMembers ∧
      (ensureMergedRecord sampleEnsured sampleTeamRow (some "quiz-1")
          none).teamCompleted = sampleEnsured.teamCompleted ∧
      (ensureMergedRecord sampleEnsured sampleTeamRow (some "quiz-1")
          none).teamScore = sampleEnsured.teamScore ∧
      (ensureMergedRecord sampleEnsured sampleTeamRow (some "quiz-1")
          none).teamId = sampleEnsured.teamId ∧
      (ensureMergedRecord sampleEnsured sampleTeamRow (some "quiz-1")
          none).matchId = sampleEnsured.matchId :=
  ensure_team_progress_idempotent [] "match-1" "team-1" sampleTeamRow
    sampleTeamRow (some "quiz-1") (some "quiz-1") none none
    [("match-1", [("team-1", sampleEnsured)])] sampleEnsured rfl rfl
    (by decide) (by decide) (by rfl)

/-! ## C4: the scoreboard sort order -/

theorem pyStrLe_total : ∀ a b : PyStr, pyStrLe a b = true ∨ pyStrLe b a = true := by
  intro a
  induction a with
  | nil => intro b; left; cases b <;> rfl
  | cons x xs ih =>
    intro b
    cases b with
    | nil => right; rfl
    | cons y ys =>
      rcases lt_trichotomy x y with h | h | h
      · left; simp [pyStrLe, h]
      · subst h
        rcases ih ys with h' | h'
        · left; simp [pyStrLe, lt_irrefl, h']
        · right; simp [pyStrLe, lt_irrefl, h']
      · right; simp [pyStrLe, h]

theorem pyStrLe_trans :
    ∀ a b c : PyStr, pyStrLe a b = true → pyStrLe b c = true →
      pyStrLe a c = true := by
  intro a
  induction a with
  | nil => intro b c _ _; cases c <;> rfl
  | cons x xs ih =>
    intro b c h₁ h₂
    cases b with
    | nil => simp [pyStrLe] at h₁
    | cons y ys =>
      cases c with
      | nil => simp [pyStrLe] at h₂
      | cons z zs =>
        rcases lt_trichotomy x y with hxy | hxy | hxy
        · rcases lt_trichotomy y z with hyz | hyz | hyz
          · simp [pyStrLe, lt_trans hxy hyz]
          · subst hyz; simp [pyStrLe, hxy]
          · have hnyz : ¬ y < z := lt_asymm hyz
            simp [pyStrLe, hnyz, hyz] at h₂
        · subst hxy
          simp only [pyStrLe, lt_irrefl, if_false] at h₁
          rcases lt_trichotomy x z with hxz | hxz | hxz
          · simp [pyStrLe, hxz]
          · subst hxz
            simp only [pyStrLe, lt_irrefl, if_false] at h₂ ⊢
            exact ih ys zs h₁ h₂
          · have hnxz : ¬ x < z := lt_asymm hxz
            simp [pyStrLe, hnxz, hxz] at h₂
        · have hnxy : ¬ x < y := lt_asymm hxy
          simp [pyStrLe, hnxy, hxy] at h₁

theorem timeKeyLt_iff (u v : Option ℚ) :
    timeKeyLt u v = true ↔
      ∃ ta, u = some ta ∧ (v = none ∨ ∃ tb, v = some tb ∧ ta < tb) := by
  cases u <;> cases v <;> simp [timeKeyLt]

theorem timeKeyLt_asymm (u v : Option ℚ) (h : timeKeyLt u v = true) :
    timeKeyLt v u = false := by
  cases u <;> cases v <;> simp [timeKeyLt] at h ⊢ <;> linarith

theorem timeKeyLt_trans (u v w : Option ℚ) (h₁ : timeKeyLt u v = true)
    (h₂ : timeKeyLt v w = true) : timeKeyLt u w = true := by
  cases u <;> cases v <;> cases w <;>
    simp [timeKeyLt] at h₁ h₂ ⊢ <;> linarith

theorem timeKeyLt_total (u v : Option ℚ) (h : u ≠ v) :
    timeKeyLt u v = true ∨ timeKeyLt v u = true := by
  cases u with
  | none =>
    cases v with
    | none => exact absurd rfl h
    | some y => right; rfl
  | some x =>
    cases v with
    | none => left; rfl
    | some y =>
      have hxy : x ≠ y := by rintro rfl; exact h rfl
      rcases lt_or_gt_of_ne hxy with h' | h'
      · left; simp [timeKeyLt, h']
      · right; simp [timeKeyLt, h']

theorem scoreboard_key_le_total (a b : ScoreboardEntry) :
    scoreboard_key_le a b = true ∨ scoreboard_key_le b a = true := by
  unfold scoreboard_key_le
  by_cases hs : scoreKeyOf a = scoreKeyOf b
  · by_cases ht : a.timeTaken = b.timeTaken
    · simp only [hs, ht, if_pos rfl]
      exact pyStrLe_total _ _
    · have ht' : b.timeTaken ≠ a.timeTaken := fun h => ht h.symm
      simp only [hs, if_pos rfl, if_neg ht, if_neg ht']
      exact timeKeyLt_total _ _ ht
  · have hs' : scoreKeyOf b ≠ scoreKeyOf a := fun h => hs h.symm
    simp only [if_neg hs, if_neg hs', decide_eq_true_eq]
    omega

theorem scoreboard_key_le_trans (a b c : ScoreboardEntry)
    (h₁ : scoreboard_key_le a b = true) (h₂ : scoreboard_key_le b c = true) :
    scoreboard_key_le a c = true := by
  unfold scoreboard_key_le at h₁ h₂ ⊢
  by_cases hab : scoreKeyOf a = scoreKeyOf b <;>
    by_cases hbc : scoreKeyOf b = scoreKeyOf c
  · -- scores all equal
    rw [if_pos hab] at h₁
    rw [if_pos hbc] at h₂
    rw [if_pos (hab.trans hbc)]
    by_cases tab : a.timeTaken = b.timeTaken <;>
      by_cases tbc : b.timeTaken = c.timeTaken
    · rw [if_pos tab] at h₁
      rw [if_pos tbc] at h₂
      rw [if_pos (tab.trans tbc)]
      exact pyStrLe_trans _ _ _ h₁ h₂
    · rw [if_pos tab] at h₁
      rw [if_neg tbc] at h₂
      rw [if_neg (tab ▸ tbc), tab]
      exact h₂
    · rw [if_neg tab] at h₁
      rw [if_pos tbc] at h₂
      rw [if_neg (tbc ▸ tab), ← tbc]
      exact h₁
    · rw [if_neg tab] at h₁
      rw [if_neg tbc] at h₂
      have hlt := timeKeyLt_trans _ _ _ h₁ h₂
      have hne : a.timeTaken ≠ c.timeTaken := by
        intro h
        rw [h] at h₁
        have := timeKeyLt_asymm _ _ h₂
        rw [this] at h₁
        exact Bool.false_ne_true h₁
      rw [if_neg hne]
      exact hlt
  · rw [if_pos hab] at h₁
    rw [if_neg hbc, decide_eq_true_eq] at h₂
    rw [if_neg (hab ▸ hbc), decide_eq_true_eq, hab]
    exact h₂
  · rw [if_neg hab, decide_eq_true_eq] at h₁
    rw [if_pos hbc] at h₂
    rw [if_neg (hbc ▸ hab), decide_eq_true_eq, ← hbc]
    exact h₁
  · rw [if_neg hab, decide_eq_true_eq] at h₁
    rw [if_neg hbc, decide_eq_true_eq] at h₂
    have : scoreKeyOf a ≠ scoreKeyOf c := by omega
    rw [if_neg this, decide_eq_true_eq]
    omega

theorem scoreboard_key_le_iff (a b : ScoreboardEntry) :
    scoreboard_key_le a b = true ↔ scoreboardSpecLe a b := by
  have hks : ∀ e : ScoreboardEntry, scoreKeyOf e = -(scoreOrZero e.score) := fun _ => rfl
  unfold scoreboard_key_le scoreboardSpecLe
  by_cases hs : scoreKeyOf a = scoreKeyOf b
  · have hs' : scoreOrZero a.score = scoreOrZero b.score := by
      rw [hks a, hks b] at hs; omega
    by_cases ht : a.timeTaken = b.timeTaken
    · rw [if_pos hs, if_pos ht]
      constructor
      · intro h
        exact Or.inr ⟨hs', Or.inr ⟨ht, h⟩⟩
      · rintro (hlt | ⟨_, htl | ⟨_, h⟩⟩)
        · rw [hs'] at hlt
          exact absurd hlt (lt_irrefl _)
        · obtain ⟨ta, hta, hb⟩ := htl
          rw [hta] at ht
          rcases hb with hb | ⟨tb, htb, hlt'⟩
          · rw [hb] at ht; exact absurd ht (by simp)
          · rw [htb] at ht
            rw [Option.some.injEq] at ht
            rw [ht] at hlt'
            exact absurd hlt' (lt_irrefl _)
        · exact h
    · rw [if_pos hs, if_neg ht]
      constructor
      · intro h
        exact Or.inr ⟨hs', Or.inl ((timeKeyLt_iff _ _).mp h)⟩
      · rintro (hlt | ⟨_, htl | ⟨hteq, _⟩⟩)
        · rw [hs'] at hlt
          exact absurd hlt (lt_irrefl _)
        · exact (timeKeyLt_iff _ _).mpr htl
        · exact absurd hteq ht
  · rw [if_neg hs]
    have hs' : scoreOrZero a.score ≠ scoreOrZero b.score := by
      intro h; rw [hks a, hks b, h] at hs; exact hs rfl
    constructor
    · intro h
      rw [decide_eq_true_eq, hks a, hks b] at h
      exact Or.inl (by omega)
    · rintro (hlt | ⟨heq, _⟩)
      · rw [decide_eq_true_eq, hks a, hks b]
        omega
      · exact absurd heq hs'

/-- **C4.** The scoreboard sort is a permutation of its input ordered by
score descending, then time-taken ascending with missing times after all
present ones, then team name ascending; in particular the specification's
example A(3, 50s), B(3, 40s), C(5, 999s) sorts as [C, B, A].  The sort is a
pure function of the entry list, hence deterministic for a fixed input. -/
theorem game_screen_scoreboard_sort :
    ∀ l : List ScoreboardEntry,
      (sort_team_scoreboard l).Pairwise scoreboardSpecLe ∧
      (sort_team_scoreboard l).Perm l ∧
      sort_team_scoreboard [entryA, entryB, entryC] =
        [entryC, entryB, entryA] := by
  intro l
  haveI : IsTotal ScoreboardEntry (fun a b => scoreboard_key_le a b = true) :=
    ⟨scoreboard_key_le_total⟩
  haveI : IsTrans ScoreboardEntry (fun a b => scoreboard_key_le a b = true) :=
    ⟨scoreboard_key_le_trans⟩
  refine ⟨?_, List.perm_insertionSort _ l, by decide⟩
  have hs := List.sorted_insertionSort
    (fun a b => scoreboard_key_le a b = true) l
  exact hs.imp (fun h => (scoreboard_key_le_iff _ _).mp h)

/-! ## C5: init-data tampering and the hash gate -/

theorem joinLines_cons_of_ne_nil (x : PyStr) (l : List PyStr) (h : l ≠ []) :
    joinLines (x :: l) = x ++ '\n' :: joinLines l := by
  cases l with
  | nil => exact absurd rfl h
  | cons y ys => rfl

theorem joinLines_ne : ∀ (pre : List PyStr) (x y : PyStr) (post : List PyStr),
    x.length = y.length → x ≠ y →
    joinLines (pre ++ x :: post) ≠ joinLines (pre ++ y :: post) := by
  intro pre
  induction pre with
  | nil =>
    intro x y post hlen hne
    cases post with
    | nil => simpa [joinLines] using hne
    | cons p ps =>
      intro heq
      rw [List.nil_append, List.nil_append,
        joinLines_cons_of_ne_nil x _ (by simp),
        joinLines_cons_of_ne_nil y _ (by simp)] at heq
      exact hne (List.append_inj heq hlen).1
  | cons q pre ih =>
    intro x y post hlen hne heq
    rw [List.cons_append, List.cons_append,
      joinLines_cons_of_ne_nil q _ (by simp),
      joinLines_cons_of_ne_nil q _ (by simp)] at heq
    have h2 := List.append_cancel_left heq
    have h3 : joinLines (pre ++ x :: post) = joinLines (pre ++ y :: post) := by
      injection h2
    exact ih x y post hlen hne h3

theorem joinLines_length : ∀ l : List PyStr, l ≠ [] →
    (joinLines l).length = (l.map List.length).sum + (l.length - 1) := by
  intro l
  induction l with
  | nil => intro h; exact absurd rfl h
  | cons x xs ih =>
    intro _
    cases xs with
    | nil => simp [joinLines]
    | cons y ys =>
      rw [joinLines_cons_of_ne_nil x _ (by simp)]
      have hih := ih (by simp)
      simp only [List.length_append, List.length_cons, List.map_cons,
        List.sum_cons] at hih ⊢
      omega

theorem list_set_ne (v : PyStr) (i : Nat) (c : Char) (hi : i < v.length)
    (hc : v.get ⟨i, hi⟩ ≠ c) : v.set i c ≠ v := by
  intro h
  have h1 := congrArg (fun l : PyStr => l[i]?) h
  simp only [List.getElem?_set_self hi, List.getElem?_eq_getElem hi] at h1
  exact hc (by injection h1 with h2; exact h2.symm ▸ rfl)

theorem entryLine_length (kv : PyStr × PyStr) :
    (entryLine kv).length = kv.1.length + kv.2.length + 1 := by
  simp [entryLine]
  omega

theorem entryLine_ne (k v v' : PyStr) (h : v ≠ v') :
    entryLine (k, v) ≠ entryLine (k, v') := by
  intro he
  unfold entryLine at he
  have h2 := List.append_cancel_left he
  injection h2 with _ h3
  exact h h3

theorem pairwise_fieldKeyLe_congr (l l' : List (PyStr × PyStr))
    (h : l.map Prod.fst = l'.map Prod.fst)
    (hp : List.Pairwise fieldKeyLe l) : List.Pairwise fieldKeyLe l' := by
  have h1 : List.Pairwise (fun a b : PyStr => pyStrLe a b = true)
      (l.map Prod.fst) := by
    rw [List.pairwise_map]
    exact hp.imp (fun hab => hab)
  rw [h, List.pairwise_map] at h1
  exact h1.imp (fun hab => hab)

theorem data_check_string_sorted (F : List (PyStr × PyStr))
    (h : List.Pairwise fieldKeyLe F) :
    data_check_string F = joinLines (F.map entryLine) := by
  unfold data_check_string
  rw [List.Sorted.insertionSort_eq h]

theorem legacyFields_of_ne (pre post : List (PyStr × PyStr)) (f v : PyStr)
    (hf : f ≠ signatureKey) :
    legacyFields (pre ++ (f, v) :: post) =
      legacyFields pre ++ (f, v) :: legacyFields post := by
  simp [legacyFields, List.filter_append, List.filter_cons, hf]

theorem entry_lengths_sum_eq (pre post : List (PyStr × PyStr)) (f v v' : PyStr)
    (hlen : v'.length = v.length) :
    ((pre ++ (f, v') :: post).map (fun kv => (entryLine kv).length)).sum =
      ((pre ++ (f, v) :: post).map (fun kv => (entryLine kv).length)).sum := by
  simp only [List.map_append, List.map_cons, List.sum_append, List.sum_cons,
    entryLine_length]
  omega

theorem entry_length_pos (kv : PyStr × PyStr) : 1 ≤ (entryLine kv).length := by
  rw [entryLine_length]
  omega

theorem length_le_entry_sum (l : List (PyStr × PyStr)) :
    l.length ≤ (l.map (fun kv => (entryLine kv).length)).sum := by
  induction l with
  | nil => simp
  | cons kv rest ih =>
    simp only [List.length_cons, List.map_cons, List.sum_cons]
    have := entry_length_pos kv
    omega

theorem entry_sum_filter_le (l : List (PyStr × PyStr))
    (P : PyStr × PyStr → Bool) :
    ((l.filter P).map (fun kv => (entryLine kv).length)).sum ≤
      (l.map (fun kv => (entryLine kv).length)).sum :=
  List.Sublist.sum_le_sum
    (List.Sublist.map _ (List.filter_sublist l)) (fun a _ => Nat.zero_le a)

theorem data_check_string_length_eq (F : List (PyStr × PyStr))
    (hF : List.Pairwise fieldKeyLe F) (hFne : F ≠ []) :
    (data_check_string F).length =
      (F.map (fun kv => (entryLine kv).length)).sum + (F.length - 1) := by
  rw [data_check_string_sorted F hF,
    joinLines_length _ (by simpa using hFne)]
  simp only [List.map_map, List.length_map]
  rfl

theorem legacy_data_check_length_lt (F : List (PyStr × PyStr))
    (hsig : signatureKey ∈ F.map Prod.fst)
    (hF : List.Pairwise fieldKeyLe F) :
    (data_check_string (legacyFields F)).length <
      (data_check_string F).length := by
  have hFne : F ≠ [] := by
    rintro rfl
    simp at hsig
  have hLsorted : List.Pairwise fieldKeyLe (legacyFields F) := by
    unfold legacyFields
    exact hF.filter _
  have hm : (legacyFields F).length < F.length := by
    rw [List.mem_map] at hsig
    obtain ⟨kv, hkv, hfst⟩ := hsig
    refine List.length_filter_lt_length_iff_exists.mpr ⟨kv, hkv, ?_⟩
    simp [hfst]
  have hsum : ((legacyFields F).map (fun kv => (entryLine kv).length)).sum ≤
      (F.map (fun kv => (entryLine kv).length)).sum := by
    unfold legacyFields
    exact entry_sum_filter_le F _
  have hlenF : F.length ≤ (F.map (fun kv => (entryLine kv).length)).sum :=
    length_le_entry_sum F
  have hFlen := data_check_string_length_eq F hF hFne
  have h1 : 1 ≤ F.length := List.length_pos.mpr hFne
  by_cases hLne : legacyFields F = []
  · rw [hLne]
    have : data_check_string ([] : List (PyStr × PyStr)) = [] := rfl
    rw [this]
    simp only [List.length_nil]
    omega
  · have hLlen := data_check_string_length_eq _ hLsorted hLne
    have hL1 : 1 ≤ (legacyFields F).length := List.length_pos.mpr hLne
    omega

/-- **C5 (amended).** For a verified init-data payload (fields given as the
key-sorted parsed dict, hash popped), altering a single character of the
value of any field other than `hash` and `signature` makes the hash gate of
`_validate_init_data` reject the resubmission with a 401, under the claim's
assumption that the two HMAC-SHA256 variants produce distinct digests for
the distinct data-check strings involved.  (The `signature` field must be
excluded: it is dropped from the legacy data-check string, so altering it
leaves the two legacy hash candidates unchanged — see the counterexample.) -/
theorem validate_init_data_tamper_rejected :
    ∀ (hW hL : PyStr → PyStr) (pre post : List (PyStr × PyStr))
      (f v : PyStr) (i : Nat) (c : Char) (rh : PyStr)
      (hi : i < v.length), v.get ⟨i, hi⟩ ≠ c →
      f ≠ signatureKey →
      List.Pairwise fieldKeyLe (pre ++ (f, v) :: post) →
      hmacDistinct hW hL (pre ++ (f, v) :: post)
        (pre ++ (f, v.set i c) :: post) →
      validate_init_data_hash hW hL (pre ++ (f, v) :: post) rh = .ok () →
      validate_init_data_hash hW hL (pre ++ (f, v.set i c) :: post) rh =
        .error 401 := by
  intro hW hL pre post f v i c rh hi hc hf hsorted hdist hvalid
  have hkeys : (pre ++ (f, v) :: post).map Prod.fst =
      (pre ++ (f, v.set i c) :: post).map Prod.fst := by
    simp
  have hsorted' : List.Pairwise fieldKeyLe (pre ++ (f, v.set i c) :: post) :=
    pairwise_fieldKeyLe_congr _ _ hkeys hsorted
  have hvlen : (v.set i c).length = v.length := List.length_set v i c
  have hvne : v.set i c ≠ v := list_set_ne v i c hi hc
  have hentlen : (entryLine (f, v)).length = (entryLine (f, v.set i c)).length := by
    simp [entryLine_length, hvlen]
  have hentne : entryLine (f, v) ≠ entryLine (f, v.set i c) :=
    entryLine_ne f v (v.set i c) (fun h => hvne h.symm)
  have h11 : data_check_string (pre ++ (f, v) :: post) ≠
      data_check_string (pre ++ (f, v.set i c) :: post) := by
    rw [data_check_string_sorted _ hsorted,
      data_check_string_sorted _ hsorted',
      List.map_append, List.map_cons, List.map_append, List.map_cons]
    exact joinLines_ne _ _ _ _ hentlen hentne
  have hleg : legacyFields (pre ++ (f, v) :: post) =
      legacyFields pre ++ (f, v) :: legacyFields post :=
    legacyFields_of_ne pre post f v hf
  have hleg' : legacyFields (pre ++ (f, v.set i c) :: post) =
      legacyFields pre ++ (f, v.set i c) :: legacyFields post :=
    legacyFields_of_ne pre post f _ hf
  have hLsorted : List.Pairwise fieldKeyLe
      (legacyFields (pre ++ (f, v) :: post)) := by
    unfold legacyFields
    exact hsorted.filter _
  have hLsorted' : List.Pairwise fieldKeyLe
      (legacyFields (pre ++ (f, v.set i c) :: post)) := by
    unfold legacyFields
    exact hsorted'.filter _
  have h22 : data_check_string (legacyFields (pre ++ (f, v) :: post)) ≠
      data_check_string (legacyFields (pre ++ (f, v.set i c) :: post)) := by
    rw [data_check_string_sorted _ hLsorted,
      data_check_string_sorted _ hLsorted', hleg, hleg',
      List.map_append, List.map_cons, List.map_append, List.map_cons]
    exact joinLines_ne _ _ _ _ hentlen hentne
  have hcross :
      data_check_string (pre ++ (f, v) :: post) ≠
        data_check_string (legacyFields (pre ++ (f, v.set i c) :: post)) ∧
      data_check_string (legacyFields (pre ++ (f, v) :: post)) ≠
        data_check_string (pre ++ (f, v.set i c) :: post) := by
    by_cases hsig : signatureKey ∈ (pre ++ (f, v) :: post).map Prod.fst
    · have hsig' : signatureKey ∈ (pre ++ (f, v.set i c) :: post).map Prod.fst := by
        rw [← hkeys]; exact hsig
      have hlt := legacy_data_check_length_lt _ hsig hsorted
      have hlt' := legacy_data_check_length_lt _ hsig' hsorted'
      have hlenfull : (data_check_string (pre ++ (f, v.set i c) :: post)).length =
          (data_check_string (pre ++ (f, v) :: post)).length := by
        rw [data_check_string_length_eq _ hsorted (by simp),
          data_check_string_length_eq _ hsorted' (by simp),
          entry_lengths_sum_eq pre post f v (v.set i c) hvlen]
        simp
      have hne1 : legacyFields (pre ++ (f, v) :: post) ≠ [] := by
        rw [hleg]; simp
      have hne2 : legacyFields (pre ++ (f, v.set i c) :: post) ≠ [] := by
        rw [hleg']; simp
      have hlenleg : (data_check_string
            (legacyFields (pre ++ (f, v.set i c) :: post))).length =
          (data_check_string (legacyFields (pre ++ (f, v) :: post))).length := by
        rw [data_check_string_length_eq _ hLsorted hne1,
          data_check_string_length_eq _ hLsorted' hne2, hleg, hleg',
          entry_lengths_sum_eq (legacyFields pre) (legacyFields post) f v
            (v.set i c) hvlen]
        simp
      constructor
      · intro h
        have := congrArg List.length h
        omega
      · intro h
        have := congrArg List.length h
        omega
    · have hid : legacyFields (pre ++ (f, v) :: post) = pre ++ (f, v) :: post := by
        unfold legacyFields
        rw [List.filter_eq_self]
        intro a ha
        simp only [decide_eq_true_eq]
        intro heq
        exact hsig (List.mem_map.mpr ⟨a, ha, heq⟩)
      have hid' : legacyFields (pre ++ (f, v.set i c) :: post) =
          pre ++ (f, v.set i c) :: post := by
        unfold legacyFields
        rw [List.filter_eq_self]
        intro a ha
        simp only [decide_eq_true_eq]
        intro heq
        refine hsig ?_
        rw [hkeys]
        exact List.mem_map.mpr ⟨a, ha, heq⟩
      rw [hid, hid']
      exact ⟨h11, fun h => h11 h⟩
  have hmem : rh ∈ hashCandidates hW hL (pre ++ (f, v) :: post) := by
    by_contra hnm
    simp [validate_init_data_hash, hnm] at hvalid
  have hm := by simpa [hashCandidates] using hmem
  have hnot : rh ∉ hashCandidates hW hL (pre ++ (f, v.set i c) :: post) := by
    intro hmem'
    have hm' := by simpa [hashCandidates] using hmem'
    have happ := hdist
    unfold hmacDistinct involvedStrings at happ
    simp only [List.mem_cons, List.not_mem_nil, or_false] at happ
    rcases hm with h | h | h | h <;> rcases hm' with h' | h' | h' | h' <;>
      rw [h] at h' <;>
      first
      | exact (happ _ (Or.inl rfl) _ (Or.inl rfl) h11).1 h'
      | exact (happ _ (Or.inl rfl) _ (Or.inl rfl) h11).2.1 h'
      | exact (happ _ (Or.inl rfl) _ (Or.inl rfl) h11).2.2.1 h'
      | exact (happ _ (Or.inl rfl) _ (Or.inl rfl) h11).2.2.2 h'
      | exact (happ _ (Or.inl rfl) _ (Or.inr rfl) hcross.1).1 h'
      | exact (happ _ (Or.inl rfl) _ (Or.inr rfl) hcross.1).2.1 h'
      | exact (happ _ (Or.inl rfl) _ (Or.inr rfl) hcross.1).2.2.1 h'
      | exact (happ _ (Or.inl rfl) _ (Or.inr rfl) hcross.1).2.2.2 h'
      | exact (happ _ (Or.inr rfl) _ (Or.inl rfl) hcross.2).1 h'
      | exact (happ _ (Or.inr rfl) _ (Or.inl rfl) hcross.2).2.1 h'
      | exact (happ _ (Or.inr rfl) _ (Or.inl rfl) hcross.2).2.2.1 h'
      | exact (happ _ (Or.inr rfl) _ (Or.inl rfl) hcross.2).2.2.2 h'
      | exact (happ _ (Or.inr rfl) _ (Or.inr rfl) h22).1 h'
      | exact (happ _ (Or.inr rfl) _ (Or.inr rfl) h22).2.1 h'
      | exact (happ _ (Or.inr rfl) _ (Or.inr rfl) h22).2.2.1 h'
      | exact (happ _ (Or.inr rfl) _ (Or.inr rfl) h22).2.2.2 h'
  unfold validate_init_data_hash
  rw [if_neg hnot]

/-- **C5 counterexample to the claim as stated.**  A payload whose received
hash matches the legacy (signature-excluded) WebAppData candidate verifies;
altering one character of its `signature` field — a non-hash field — and
resubmitting still verifies (no 401), even though the claim's HMAC
distinctness assumption holds for the strings involved: the legacy
data-check string is unchanged by the alteration. -/
theorem validate_init_data_signature_counterexample :
    List.Pairwise fieldKeyLe sampleFields ∧
    ("signature".data, "abc".data) ∈ sampleFields ∧
    0 < ("abc".data).length ∧ ("abc".data)[0]? ≠ some 'x' ∧
    hmacDistinct sampleHmacW sampleHmacL sampleFields sampleFieldsTampered ∧
    validate_init_data_hash sampleHmacW sampleHmacL sampleFields
      sampleLegacyHash = .ok () ∧
    validate_init_data_hash sampleHmacW sampleHmacL sampleFieldsTampered
      sampleLegacyHash = .ok () := by
  refine ⟨by decide, by decide, by decide, by decide, ?_, by rfl, by rfl⟩
  unfold hmacDistinct
  decide

/-- Witness for the amended C5 at a concrete signature-less payload whose
`user` value is altered. -/
theorem validate_init_data_tamper_rejected_witness :
    validate_init_data_hash sampleHmacW sampleHmacL
      ([("auth_date".data, "1".data)] ++
        ("user".data, ("u".data).set 0 'v') :: [])
      sampleFullHash = .error 401 :=
  validate_init_data_tamper_rejected sampleHmacW sampleHmacL
    [("auth_date".data, "1".data)] [] "user".data "u".data 0 'v'
    sampleFullHash (by decide) (by decide) (by decide) (by decide)
    (by unfold hmacDistinct; decide) (by rfl)
